import Mathlib

/-!
Verification of the distributional / Bayesian value-estimation core of the
rltf repository (files rltf/models/qr_dqn.py and rltf/models/bdqn.py).

Tensors are embedded as (nested) lists of rationals: a tensor of shape
[batch, n_actions, N] becomes List (List (List Rat)).  TensorFlow reductions
reduce_mean / reduce_sum / reduce_max / argmax / argmin are embedded as list
operations; arithmetic is exact rational arithmetic.  Where TensorFlow would
produce a non-finite float (division by zero), the embedding makes the
non-finiteness explicit (Option / Except), since Rat has no NaN or Inf.
-/

namespace Rltf

/-- tf.reduce_mean over the last axis of a vector: sum divided by length. -/
def rmean (xs : List ℚ) : ℚ := xs.sum / (xs.length : ℚ)

/-- tf.reduce_max of a vector (the code only applies it to nonempty vectors;
on [] we return 0, a case never reached under the shape hypotheses). -/
def rmax : List ℚ → ℚ
  | [] => 0
  | x :: xs => xs.foldl max x

/-- tf.argmax: index of the first occurrence of the maximal element. -/
def argmaxIdx (xs : List ℚ) : ℕ := xs.findIdx (fun x => xs.all (fun y => decide (y ≤ x)))

/-- tf.argmin: index of the first occurrence of the minimal element. -/
def argminIdx (xs : List ℚ) : ℕ := xs.findIdx (fun x => xs.all (fun y => decide (x ≤ y)))

/- ### Generic list lemmas used throughout -/

theorem getD_zipWith {α β γ : Type} (f : α → β → γ) :
    ∀ (as : List α) (bs : List β) (i : ℕ) (da : α) (db : β) (dc : γ),
    i < as.length → i < bs.length →
    (List.zipWith f as bs).getD i dc = f (as.getD i da) (bs.getD i db) := by
  intro as
  induction as with
  | nil => intro bs i da db dc h1 h2; simp at h1
  | cons a as ih =>
    intro bs i da db dc h1 h2
    cases bs with
    | nil => simp at h2
    | cons b bs =>
      cases i with
      | zero => simp [List.getD]
      | succ n =>
        simp only [List.zipWith, List.getD_cons_succ]
        exact ih bs n da db dc (by simpa using h1) (by simpa using h2)

theorem getD_map {α β : Type} (f : α → β) :
    ∀ (as : List α) (i : ℕ) (da : α) (db : β),
    i < as.length →
    (as.map f).getD i db = f (as.getD i da) := by
  intro as
  induction as with
  | nil => intro i da db h; simp at h
  | cons a as ih =>
    intro i da db h
    cases i with
    | zero => simp [List.getD]
    | succ n =>
      simp only [List.map, List.getD_cons_succ]
      exact ih n da db (by simpa using h)

theorem getD_mapIdx {α β : Type} :
    ∀ (as : List α) (f : ℕ → α → β) (i : ℕ) (da : α) (db : β),
    i < as.length →
    (as.mapIdx f).getD i db = f i (as.getD i da) := by
  intro as
  induction as with
  | nil => intro f i da db h; simp at h
  | cons a as ih =>
    intro f i da db h
    cases i with
    | zero => simp [List.getD, List.mapIdx_cons]
    | succ n =>
      simp only [List.mapIdx_cons, List.getD_cons_succ]
      exact ih (fun j x => f (j + 1) x) n da db (by simpa using h)

theorem exists_max_mem : ∀ (xs : List ℚ), xs ≠ [] → ∃ x ∈ xs, ∀ y ∈ xs, y ≤ x := by
  intro xs
  induction xs with
  | nil => intro h; exact absurd rfl h
  | cons a as ih =>
    intro _
    cases as with
    | nil => exact ⟨a, by simp⟩
    | cons b bs =>
      obtain ⟨m, hm, hmax⟩ := ih (by simp)
      by_cases hc : a ≤ m
      · exact ⟨m, List.mem_cons_of_mem a hm, by
          intro y hy
          rcases List.mem_cons.mp hy with h | h
          · exact h ▸ hc
          · exact hmax y h⟩
      · exact ⟨a, List.mem_cons_self a _, by
          intro y hy
          rcases List.mem_cons.mp hy with h | h
          · exact h ▸ le_refl a
          · exact le_trans (hmax y h) (le_of_not_le hc)⟩

theorem argmaxIdx_lt_length (xs : List ℚ) (h : xs ≠ []) : argmaxIdx xs < xs.length := by
  obtain ⟨m, hm, hmax⟩ := exists_max_mem xs h
  apply List.findIdx_lt_length_of_exists
  exact ⟨m, hm, by simpa using hmax⟩

theorem argmaxIdx_spec (xs : List ℚ) (h : xs ≠ []) :
    ∀ y ∈ xs, y ≤ xs.getD (argmaxIdx xs) 0 := by
  have hlt := argmaxIdx_lt_length xs h
  have := List.findIdx_getElem (w := hlt)
  simp only [List.all_eq_true, decide_eq_true_eq] at this
  intro y hy
  have hg : xs.getD (argmaxIdx xs) 0 = xs[argmaxIdx xs] := List.getD_eq_getElem xs 0 hlt
  rw [hg]
  exact this y hy

/- ### QRDQN._compute_backup (qr_dqn.py lines 92-105)

done_mask = cast(not done); rew_t = expand_dims(rew); target_z = rew_t + gamma * done_mask * target_z.
The expand_dims/broadcast structure becomes: pair each transition's (reward, done)
with its row of N target quantiles and apply the scalar formula to every slot. -/

def compute_backup (gamma : ℚ) (rew : List ℚ) (done : List Bool) (target_z : List (List ℚ)) :
    List (List ℚ) :=
  List.zipWith (fun (rd : ℚ × Bool) row =>
      row.map (fun zi => rd.1 + gamma * (if rd.2 then 0 else 1) * zi))
    (rew.zip done) target_z

theorem compute_backup_entry (gamma : ℚ) (rew : List ℚ) (done : List Bool)
    (target_z : List (List ℚ)) (b i : ℕ)
    (hb1 : b < rew.length) (hb2 : b < done.length) (hb3 : b < target_z.length)
    (hi : i < (target_z.getD b []).length) :
    ((compute_backup gamma rew done target_z).getD b []).getD i 0 =
      rew.getD b 0 + gamma * (if done.getD b false then 0 else 1) * (target_z.getD b []).getD i 0 := by
  have hzip : (rew.zip done).getD b (0, false) = (rew.getD b 0, done.getD b false) := by
    rw [List.getD_eq_getElem _ _ (by simp [List.length_zip]; omega),
        List.getD_eq_getElem _ _ hb1, List.getD_eq_getElem _ _ hb2]
    simp [List.getElem_zip]
  unfold compute_backup
  rw [getD_zipWith _ (rew.zip done) target_z b (0, false) [] [] (by simp [List.length_zip]; omega) hb3]
  rw [getD_map _ (target_z.getD b []) i 0 0 hi, hzip]

/-- C2: For every transition in a batch, the backup satisfies
target_z[b,i] = reward[b] + gamma * (1 - done[b]) * target_z[b,i] applied identically
across all N quantile slots, and for any transition with done = true every slot of the
backup equals reward[b] exactly, for every gamma and every target-network output. -/
theorem c2_backup_terminal_masking (gamma : ℚ) (rew : List ℚ) (done : List Bool)
    (target_z : List (List ℚ)) (b i : ℕ)
    (hb1 : b < rew.length) (hb2 : b < done.length) (hb3 : b < target_z.length)
    (hi : i < (target_z.getD b []).length) :
    ((compute_backup gamma rew done target_z).getD b []).getD i 0 =
      rew.getD b 0 +
        gamma * (1 - (if done.getD b false then 1 else 0)) * (target_z.getD b []).getD i 0 ∧
    (done.getD b false = true →
      ((compute_backup gamma rew done target_z).getD b []).getD i 0 = rew.getD b 0) := by
  have h := compute_backup_entry gamma rew done target_z b i hb1 hb2 hb3 hi
  constructor
  · rw [h]
    by_cases hd : done.getD b false = true
    · rw [if_pos hd, if_pos hd]; ring
    · rw [if_neg hd, if_neg hd]; ring
  · intro hd
    rw [h, if_pos hd]
    ring

theorem c2_backup_terminal_masking_witness :
    (0 < 1 ∧ 0 < 1 ∧ 0 < 1 ∧ 0 < 2) ∧
    (((compute_backup (99/100) [(7:ℚ)] [true] [[(5:ℚ), -3]]).getD 0 []).getD 1 0 =
        (7:ℚ) + (99/100) * (1 - (if ([true].getD 0 false) then 1 else 0)) *
          (([[(5:ℚ), -3]].getD 0 []).getD 1 0) ∧
      (([true].getD 0 false) = true →
        ((compute_backup (99/100) [(7:ℚ)] [true] [[(5:ℚ), -3]]).getD 0 []).getD 1 0 = 7)) :=
  ⟨by decide,
   c2_backup_terminal_masking (99/100) [7] [true] [[5, -3]] 0 1
     (by decide) (by decide) (by decide) (by decide)⟩

/- ### QRDQN._select_target (qr_dqn.py lines 72-89)

target_q = reduce_mean(target_net, axis=-1); target_act = argmax(target_q, axis=-1);
target_mask = one_hot(target_act); target_z = reduce_sum(target_net * target_mask, axis=1).
The one_hot/multiply/reduce_sum gather is embedded literally: scale row i by
(if i = act then 1 else 0) and sum the rows elementwise. -/

def vecAdd (u v : List ℚ) : List ℚ := List.zipWith (fun x y => x + y) u v

def vecSum (N : ℕ) (vs : List (List ℚ)) : List ℚ := vs.foldr vecAdd (List.replicate N 0)

def oneHotSelect (N a : ℕ) (rows : List (List ℚ)) : List ℚ :=
  vecSum N (rows.mapIdx (fun i row => row.map (fun x => x * (if i = a then 1 else 0))))

def select_target (N : ℕ) (target_net : List (List (List ℚ))) : List (List ℚ) :=
  target_net.map (fun rows => oneHotSelect N (argmaxIdx (rows.map rmean)) rows)

theorem vecAdd_zero_scaled (r : List ℚ) :
    vecAdd (r.map (fun x => x * 0)) (List.replicate r.length 0) = List.replicate r.length 0 := by
  induction r <;> simp_all [vecAdd, List.replicate]

theorem vecAdd_one_scaled (r : List ℚ) :
    vecAdd (r.map (fun x => x * 1)) (List.replicate r.length 0) = r := by
  induction r with
  | nil => rfl
  | cons x xs ih => simp [vecAdd, List.replicate] at ih ⊢; exact ih

theorem vecAdd_zero_scaled' (r : List ℚ) :
    ∀ (v : List ℚ), r.length = v.length → vecAdd (r.map (fun x => x * 0)) v = v := by
  induction r with
  | nil =>
    intro v hv
    cases v with
    | nil => rfl
    | cons y ys => simp at hv
  | cons x xs ih =>
    intro v hv
    cases v with
    | nil => simp at hv
    | cons y ys => simp [vecAdd] at ih ⊢; exact ih ys (by simpa using hv)

theorem vecSum_mapIdx_zero (N a : ℕ) :
    ∀ (rs : List (List ℚ)) (g : ℕ → ℕ), (∀ i, g i ≠ a) → (∀ r ∈ rs, r.length = N) →
    vecSum N (rs.mapIdx (fun i row => row.map (fun x => x * (if g i = a then 1 else 0)))) =
      List.replicate N 0 := by
  intro rs
  induction rs with
  | nil => intro g _ _; rfl
  | cons r rs ih =>
    intro g hg hlen
    simp only [List.mapIdx_cons, vecSum, List.foldr_cons]
    have htail := ih (fun i => g (i + 1)) (fun i => hg (i + 1)) (fun r hr => hlen r (by simp [hr]))
    simp only [vecSum] at htail
    rw [htail, if_neg (hg 0)]
    have hr : r.length = N := hlen r (by simp)
    rw [← hr]
    exact vecAdd_zero_scaled r

theorem oneHotSelect_go (N : ℕ) :
    ∀ (rows : List (List ℚ)) (g : ℕ → ℕ) (p : ℕ), Function.Injective g →
    (∀ r ∈ rows, r.length = N) → p < rows.length →
    vecSum N (rows.mapIdx (fun i row => row.map (fun x => x * (if g i = g p then 1 else 0)))) =
      rows.getD p [] := by
  intro rows
  induction rows with
  | nil => intro g p _ _ hp; simp at hp
  | cons r rs ih =>
    intro g p hg hlen hp
    cases p with
    | zero =>
      simp only [List.mapIdx_cons, vecSum, List.foldr_cons, if_pos rfl, List.getD_cons_zero]
      have htail := vecSum_mapIdx_zero N (g 0) rs (fun i => g (i + 1))
        (fun i h => Nat.succ_ne_zero i (hg h)) (fun r hr => hlen r (by simp [hr]))
      simp only [vecSum] at htail
      rw [htail]
      have hr : r.length = N := hlen r (by simp)
      rw [← hr]
      exact vecAdd_one_scaled r
    | succ q =>
      have hne : g 0 ≠ g (q + 1) := fun h => Nat.succ_ne_zero q (hg h).symm
      simp only [List.mapIdx_cons, vecSum, List.foldr_cons, if_neg hne, List.getD_cons_succ]
      have hg' : Function.Injective (fun i => g (i + 1)) := by
        intro i j hij
        have := hg hij
        omega
      have htail := ih (fun i => g (i + 1)) q hg' (fun r hr => hlen r (by simp [hr]))
        (by simpa using hp)
      simp only [vecSum] at htail
      rw [htail]
      apply vecAdd_zero_scaled'
      have hmem : rs.getD q [] ∈ rs := by
        rw [List.getD_eq_getElem _ _ (by simpa using hp)]
        exact List.getElem_mem _
      rw [hlen r (by simp), hlen _ (List.mem_cons_of_mem r hmem)]

theorem oneHotSelect_eq (N a : ℕ) (rows : List (List ℚ))
    (hlen : ∀ r ∈ rows, r.length = N) (ha : a < rows.length) :
    oneHotSelect N a rows = rows.getD a [] := by
  have := oneHotSelect_go N rows id a (fun _ _ h => h) hlen ha
  simpa [oneHotSelect] using this

theorem getD_mem {α : Type} (l : List α) (i : ℕ) (d : α) (h : i < l.length) :
    l.getD i d ∈ l := by
  rw [List.getD_eq_getElem _ _ h]
  exact List.getElem_mem _

/-- C3: For every batch, the target action selected by select_target is the argmax over
actions of the mean over the N quantile values of the target network output (the function's
only input), and the returned target distribution is exactly the N quantile values of that
selected action, of shape [batch, N]. -/
theorem c3_double_q_target_selection (N : ℕ) (target_net : List (List (List ℚ))) (A : ℕ)
    (hA : 0 < A)
    (hact : ∀ rows ∈ target_net, rows.length = A)
    (hrow : ∀ rows ∈ target_net, ∀ r ∈ rows, r.length = N)
    (b : ℕ) (hb : b < target_net.length) :
    (select_target N target_net).length = target_net.length ∧
    argmaxIdx ((target_net.getD b []).map rmean) < A ∧
    (select_target N target_net).getD b [] =
      (target_net.getD b []).getD (argmaxIdx ((target_net.getD b []).map rmean)) [] ∧
    ((select_target N target_net).getD b []).length = N ∧
    (∀ a, a < A →
      rmean ((target_net.getD b []).getD a []) ≤
        rmean ((target_net.getD b []).getD (argmaxIdx ((target_net.getD b []).map rmean)) [])) := by
  set rows := target_net.getD b [] with hrows
  have hmem : rows ∈ target_net := getD_mem target_net b [] hb
  have hlenA : rows.length = A := hact rows hmem
  have hne : rows ≠ [] := by
    intro hc
    rw [hc] at hlenA
    simp at hlenA
    omega
  have hmne : rows.map rmean ≠ [] := by
    intro hc
    exact hne (List.map_eq_nil_iff.mp hc)
  have hidx : argmaxIdx (rows.map rmean) < A := by
    have := argmaxIdx_lt_length (rows.map rmean) hmne
    rw [List.length_map] at this
    omega
  have hsel : (select_target N target_net).getD b [] =
      rows.getD (argmaxIdx (rows.map rmean)) [] := by
    unfold select_target
    rw [getD_map _ target_net b [] [] hb, ← hrows]
    exact oneHotSelect_eq N _ rows (hrow rows hmem) (by omega)
  refine ⟨by simp [select_target], hidx, hsel, ?_, ?_⟩
  · rw [hsel]
    exact hrow rows hmem _ (getD_mem rows _ [] (by omega))
  · intro a ha
    have hspec := argmaxIdx_spec (rows.map rmean) hmne
    have h1 : (rows.map rmean).getD (argmaxIdx (rows.map rmean)) 0 =
        rmean (rows.getD (argmaxIdx (rows.map rmean)) []) :=
      getD_map rmean rows _ [] 0 (by omega)
    have h2 : rmean (rows.getD a []) ∈ rows.map rmean := by
      rw [← getD_map rmean rows a [] 0 (by omega)]
      exact getD_mem _ _ _ (by rw [List.length_map]; omega)
    have := hspec _ h2
    rw [h1] at this
    exact this

theorem c3_double_q_target_selection_witness :
    (0 < 2 ∧
      (∀ rows ∈ [[[(1:ℚ), 3], [5, 1]]], rows.length = 2) ∧
      (∀ rows ∈ [[[(1:ℚ), 3], [5, 1]]], ∀ r ∈ rows, r.length = 2) ∧
      0 < 1) ∧
    ((select_target 2 [[[(1:ℚ), 3], [5, 1]]]).length = 1 ∧
      argmaxIdx (([[[(1:ℚ), 3], [5, 1]]].getD 0 []).map rmean) < 2 ∧
      (select_target 2 [[[(1:ℚ), 3], [5, 1]]]).getD 0 [] =
        ([[[(1:ℚ), 3], [5, 1]]].getD 0 []).getD
          (argmaxIdx (([[[(1:ℚ), 3], [5, 1]]].getD 0 []).map rmean)) [] ∧
      ((select_target 2 [[[(1:ℚ), 3], [5, 1]]]).getD 0 []).length = 2 ∧
      (∀ a, a < 2 →
        rmean (([[[(1:ℚ), 3], [5, 1]]].getD 0 []).getD a []) ≤
          rmean (([[[(1:ℚ), 3], [5, 1]]].getD 0 []).getD
            (argmaxIdx (([[[(1:ℚ), 3], [5, 1]]].getD 0 []).map rmean)) []))) :=
  ⟨⟨by decide, by decide, by decide, by decide⟩,
   c3_double_q_target_selection 2 [[[(1:ℚ), 3], [5, 1]]] 2
     (by decide) (by decide) (by decide) 0 (by decide)⟩

/- ### QRDQN._compute_loss (qr_dqn.py lines 108-153)

mid_quantiles = ((arange N) + 0.5) / N, shaped [1, 1, N] -- i.e. broadcast along the LAST
axis of the [batch, N, N] difference tensor.  td_z[b,i,j] = target_z[b,j] - z[b,i]
(axis -2 indexes the estimate quantile i, axis -1 the target quantile j), so the code's
quant_weight[b,i,j] = mid_quantiles[j] - indicator(td_z[b,i,j]): the quantile midpoint is
attached to the TARGET index j.  stop_gradient is the identity on values.  The reduction is
reduce_mean over axis -1 (j), reduce_sum over the remaining axis (i), reduce_mean over the
batch.  tf_ops.huber_loss is outside this repository's sources; it enters only the k > 0
branch and is abstracted as a function parameter (already specialized to the order k). -/

def mid_quantiles (N : ℕ) : List ℚ := (List.range N).map (fun i => ((i : ℚ) + 1/2) / (N : ℚ))

def indicator (x : ℚ) : ℚ := if x < 0 then 1 else 0

def compute_loss (N k : ℕ) (huber : ℚ → ℚ) (z target_z : List (List ℚ)) : ℚ :=
  rmean (List.zipWith (fun zb tzb =>
    (zb.map (fun zi =>
      rmean (List.zipWith (fun tzj τj =>
        let td := tzj - zi
        let w := τj - indicator td
        if k = 0 then w * td else |w| * huber td) tzb (mid_quantiles N)))).sum) z target_z)

/-- The loss exactly as claim C1 and the spec state it: the per-pair contribution for the
pair (i, j) uses the quantile midpoint of the ESTIMATE index i,
(tau_i - indicator) * delta for k = 0 and |tau_i - indicator| * huber(delta) for k > 0,
reduced as mean over j, sum over i, mean over the batch. -/
def claim_loss (N k : ℕ) (huber : ℚ → ℚ) (z target_z : List (List ℚ)) : ℚ :=
  rmean (List.zipWith (fun zb tzb =>
    ((List.range N).map (fun (i : ℕ) =>
      rmean ((List.range N).map (fun (j : ℕ) =>
        let τi : ℚ := ((i : ℚ) + 1/2) / (N : ℚ)
        let δ := tzb.getD j 0 - zb.getD i 0
        if k = 0 then (τi - indicator δ) * δ
        else |τi - indicator δ| * huber δ)))).sum) z target_z)

/-- C1: the code's loss does NOT match the claimed formula.  With N = 2, k = 0, one
transition, estimate quantiles [0, 0] and target quantiles [0, 1], the code yields 3/4
(its weight is tau_j - indicator, the midpoint attached to the target index j via the
[None, None, :] broadcast of mid_quantiles), while the claimed tau_i-weighted loss yields
1/2.  The huber argument is irrelevant for k = 0 and instantiated with the zero function. -/
theorem c1_loss_divergence :
    compute_loss 2 0 (fun _ => 0) [[0, 0]] [[0, 1]] = 3/4 ∧
    claim_loss 2 0 (fun _ => 0) [[0, 0]] [[0, 1]] = 1/2 ∧
    compute_loss 2 0 (fun _ => 0) [[0, 0]] [[0, 1]] ≠
      claim_loss 2 0 (fun _ => 0) [[0, 0]] [[0, 1]] := by
  refine ⟨?_, ?_, ?_⟩ <;>
    norm_num [compute_loss, claim_loss, rmean, mid_quantiles, indicator, List.range_succ]

/- ### Forward-mode autodiff model of the loss graph (for the stop_gradient claim)

A tensor entry is a dual number (value, derivative-along-a-perturbation-direction).
Each TF op propagates derivatives in the usual forward-mode way; tf.stop_gradient
keeps the value and kills the derivative.  The indicator node tf.to_float(td_z < 0.0)
is given an ARBITRARY derivative component (the "perturbation of the indicator /
tie-break term"): pert is a free function of the pair difference.  tf_ops.huber_loss
(outside this repository) is abstracted by its value huber and derivative huber'. -/

def Dual : Type := ℚ × ℚ

def dAdd (x y : Dual) : Dual := (x.1 + y.1, x.2 + y.2)

def dSub (x y : Dual) : Dual := (x.1 - y.1, x.2 - y.2)

def dMul (x y : Dual) : Dual := (x.1 * y.1, x.1 * y.2 + x.2 * y.1)

def dConst (c : ℚ) : Dual := (c, 0)

def dStopGrad (x : Dual) : Dual := (x.1, 0)

def dAbs (x : Dual) : Dual := (|x.1|, (if x.1 < 0 then -1 else 1) * x.2)

def dDivNat (x : Dual) (n : ℕ) : Dual := (x.1 / (n : ℚ), x.2 / (n : ℚ))

def dSum (xs : List Dual) : Dual := xs.foldr dAdd ((0 : ℚ), (0 : ℚ))

def dMean (xs : List Dual) : Dual := dDivNat (dSum xs) xs.length

/-- QRDQN._compute_loss over dual numbers, following the graph node by node:
td_z = target - z; indicator = to_float(td_z < 0) with perturbation direction pert;
quant_weight = mid_quantiles - indicator, then stop_gradient; k = 0 branch multiplies the
stopped weight by td_z, the k > 0 branch takes abs of the stopped weight and multiplies by
the huber term; reduce mean over j, sum over i, mean over batch. -/
def compute_loss_dual (N k : ℕ) (huber huber' : ℚ → ℚ) (pert : ℚ → ℚ)
    (z target_z : List (List Dual)) : Dual :=
  dMean (List.zipWith (fun zb tzb =>
    dSum (zb.map (fun zi =>
      dMean (List.zipWith (fun tzj τj =>
        let td := dSub tzj zi
        let ind : Dual := (indicator td.1, pert td.1)
        let w := dStopGrad (dSub (dConst τj) ind)
        if k = 0 then dMul w td
        else dMul (dAbs w) (huber td.1, huber' td.1 * td.2)) tzb (mid_quantiles N)))))
    z target_z)

theorem dSum_fst (xs : List Dual) : (dSum xs).1 = (xs.map Prod.fst).sum := by
  induction xs with
  | nil => rfl
  | cons x xs ih => simp [dSum, dAdd] at ih ⊢; rw [ih]

theorem dMean_fst (xs : List Dual) : (dMean xs).1 = rmean (xs.map Prod.fst) := by
  simp [dMean, dDivNat, dSum_fst, rmean, List.length_map]

theorem zipWith_ext {α β γ : Type} (f g : α → β → γ) (as : List α) (bs : List β)
    (h : ∀ a b, f a b = g a b) : List.zipWith f as bs = List.zipWith g as bs := by
  have hfg : f = g := funext (fun a => funext (fun b => h a b))
  rw [hfg]

theorem map_ext {α β : Type} (f g : α → β) (as : List α) (h : ∀ a, f a = g a) :
    as.map f = as.map g := by
  have hfg : f = g := funext h
  rw [hfg]

/-- Soundness of the dual-number model: its value component is exactly the loss of
QRDQN._compute_loss on the value components of the inputs, for every perturbation. -/
theorem compute_loss_dual_fst (N k : ℕ) (huber huber' pert : ℚ → ℚ)
    (z target_z : List (List Dual)) :
    (compute_loss_dual N k huber huber' pert z target_z).1 =
      compute_loss N k huber (z.map (List.map Prod.fst)) (target_z.map (List.map Prod.fst)) := by
  unfold compute_loss_dual compute_loss
  rw [dMean_fst, List.map_zipWith, List.zipWith_map]
  refine congrArg rmean (zipWith_ext _ _ _ _ ?_)
  intro zb tzb
  rw [dSum_fst, List.map_map, List.map_map]
  refine congrArg List.sum (map_ext _ _ _ ?_)
  intro zi
  simp only [Function.comp_apply]
  rw [dMean_fst, List.map_zipWith, List.zipWith_map_left]
  refine congrArg rmean (zipWith_ext _ _ _ _ ?_)
  intro tzj τj
  by_cases hk : k = 0
  · simp [hk, dMul, dAbs, dStopGrad, dSub, dConst]
  · simp [hk, dMul, dAbs, dStopGrad, dSub, dConst]

/-- C4: the gradient does not flow through the indicator term.  The loss graph applies
stop_gradient to quant_weight = mid_quantiles - indicator, so the forward-mode derivative
of the computed loss is the same for EVERY perturbation direction assigned to the
indicator node: perturbing only the indicator/tie-break term leaves the computed loss and
its derivative with respect to the network outputs unchanged, for every batch, every
quantile count N and every Huber order k. -/
theorem c4_indicator_stop_gradient (N k : ℕ) (huber huber' : ℚ → ℚ) (pert₁ pert₂ : ℚ → ℚ)
    (z target_z : List (List Dual)) :
    compute_loss_dual N k huber huber' pert₁ z target_z =
      compute_loss_dual N k huber huber' pert₂ z target_z := by
  have hstop : ∀ (τ v p : ℚ), dStopGrad (dSub (dConst τ) (v, p)) = (τ - v, 0) := by
    intro τ v p
    simp [dStopGrad, dSub, dConst]
  unfold compute_loss_dual
  simp only [hstop]

/- ### BDQN (bdqn.py)

A BLR posterior (the BLR class lives in rltf/tf_utils, outside this repository's
sources) is a mean weight vector w and a covariance matrix.  Its closed-form train
update is abstracted as an arbitrary function parameter; the claims below are about
which posteriors the ops of bdqn.py touch and with which (masked) data, which is
entirely determined by bdqn.py itself. -/

structure BLRPost where
  w   : List ℚ
  cov : List (List ℚ)
deriving DecidableEq, Inhabited

/-- BDQN.__init__ lines 24-25: one agent BLR and one target BLR per action,
each list built by a comprehension over range(n_actions). -/
def bdqn_init_ensembles (n_actions : ℕ) (agent0 target0 : BLRPost) :
    List BLRPost × List BLRPost :=
  (List.replicate n_actions agent0, List.replicate n_actions target0)

/-- The mask of _build_train_blr_op: mask = cast(equal(act_t, a)); X = phi * mask.
Rows of the feature matrix whose action is not a are multiplied by 0. -/
def blr_mask_phi (act : List ℕ) (a : ℕ) (phi : List (List ℚ)) : List (List ℚ) :=
  List.zipWith (fun ab row => row.map (fun x => x * (if ab = a then 1 else 0))) act phi

/-- y = target * mask, same mask as the features. -/
def blr_mask_y (act : List ℕ) (a : ℕ) (target : List ℚ) : List ℚ :=
  List.zipWith (fun ab yi => yi * (if ab = a then 1 else 0)) act target

/-- BDQN._build_train_blr_op lines 73-93: one train call per AGENT posterior,
enumerated over agent_blr, each on the data masked to its own action; the target
ensemble does not appear in the op.  The BLR.train update rule is the parameter train. -/
def build_train_blr_op (train : BLRPost → List (List ℚ) → List ℚ → BLRPost)
    (act : List ℕ) (phi : List (List ℚ)) (target : List ℚ)
    (agent_blr target_blr : List BLRPost) : List BLRPost × List BLRPost :=
  (agent_blr.mapIdx (fun a blr => train blr (blr_mask_phi act a phi) (blr_mask_y act a target)),
   target_blr)

/-- BDQN_TS.build lines 120-126.  Modelled from the spec: tf_utils.assign_vars and
BLR.resample_w are outside this repository's sources; per the spec, resample_w draws one
weight-vector sample from a posterior without mutating it, and the reset op assigns the
listed variables (the agent posteriors' weight vectors, blr.w for blr in agent_blr) the
listed values (one resampled draw per target posterior).  The draw is abstracted as the
function parameter resample; nothing else is touched. -/
def reset_ts_op (resample : BLRPost → List ℚ) (agent_blr target_blr : List BLRPost) :
    List BLRPost × List BLRPost :=
  (List.zipWith (fun ablr tblr => { ablr with w := resample tblr }) agent_blr target_blr,
   target_blr)

/-- C5: the train op mutates only agent-side posteriors: the target ensemble is returned
untouched for every update rule, every batch and every pair of ensembles; and the
Thompson-Sampling reset op only transfers resampled weights between the ensembles: the
target ensemble is untouched, each agent posterior keeps its covariance and only its
weight vector is replaced by a draw resampled from the corresponding target posterior --
in particular no train call occurs in the reset op. -/
theorem c5_target_posteriors_never_trained
    (train : BLRPost → List (List ℚ) → List ℚ → BLRPost)
    (act : List ℕ) (phi : List (List ℚ)) (target : List ℚ)
    (resample : BLRPost → List ℚ)
    (agent_blr target_blr : List BLRPost) (a : ℕ)
    (ha : a < agent_blr.length) (ha' : a < target_blr.length) :
    (build_train_blr_op train act phi target agent_blr target_blr).2 = target_blr ∧
    (reset_ts_op resample agent_blr target_blr).2 = target_blr ∧
    ((reset_ts_op resample agent_blr target_blr).1.getD a default).cov =
      (agent_blr.getD a default).cov ∧
    ((reset_ts_op resample agent_blr target_blr).1.getD a default).w =
      resample (target_blr.getD a default) := by
  refine ⟨rfl, rfl, ?_, ?_⟩ <;>
  · unfold reset_ts_op
    rw [getD_zipWith _ agent_blr target_blr a default default default ha ha']

theorem c5_target_posteriors_never_trained_witness :
    ((0 : ℕ) < 1 ∧ (0 : ℕ) < 1) ∧
    ((build_train_blr_op (fun blr _ _ => blr) [0] [[1]] [2]
        [⟨[3], [[4]]⟩] [⟨[5], [[6]]⟩]).2 = [⟨[5], [[6]]⟩] ∧
      (reset_ts_op (fun blr => blr.w) [⟨[3], [[4]]⟩] [⟨[5], [[6]]⟩]).2 = [⟨[5], [[6]]⟩] ∧
      ((reset_ts_op (fun blr => blr.w) [⟨[3], [[4]]⟩] [⟨[5], [[6]]⟩]).1.getD 0 default).cov =
        (([⟨[3], [[4]]⟩] : List BLRPost).getD 0 default).cov ∧
      ((reset_ts_op (fun blr => blr.w) [⟨[3], [[4]]⟩] [⟨[5], [[6]]⟩]).1.getD 0 default).w =
        (fun (blr : BLRPost) => blr.w) (([⟨[5], [[6]]⟩] : List BLRPost).getD 0 default)) :=
  ⟨⟨by decide, by decide⟩,
   c5_target_posteriors_never_trained (fun blr _ _ => blr) [0] [[1]] [2]
     (fun blr => blr.w) [⟨[3], [[4]]⟩] [⟨[5], [[6]]⟩] 0 (by decide) (by decide)⟩

theorem map_mul_zero (r : List ℚ) : r.map (fun x => x * 0) = List.replicate r.length 0 := by
  induction r <;> simp_all [List.replicate]

/-- C6: the batched BLR update trains each per-action posterior on only its own
examples: for every batch row b, if the row's action differs from a the masked feature
row and masked target are zeroed, and if it equals a they are unchanged; the train op
hands posterior a exactly this masked data; and the constructor builds exactly one agent
posterior and one target posterior per action. -/
theorem c6_blr_masking_per_action
    (train : BLRPost → List (List ℚ) → List ℚ → BLRPost)
    (act : List ℕ) (phi : List (List ℚ)) (target : List ℚ)
    (agent_blr target_blr : List BLRPost)
    (n_actions : ℕ) (agent0 target0 : BLRPost)
    (a b : ℕ)
    (hb1 : b < act.length) (hb2 : b < phi.length) (hb3 : b < target.length)
    (ha : a < agent_blr.length) :
    (act.getD b 0 ≠ a →
      (blr_mask_phi act a phi).getD b [] = List.replicate ((phi.getD b []).length) 0 ∧
      (blr_mask_y act a target).getD b 0 = 0) ∧
    (act.getD b 0 = a →
      (blr_mask_phi act a phi).getD b [] = phi.getD b [] ∧
      (blr_mask_y act a target).getD b 0 = target.getD b 0) ∧
    (build_train_blr_op train act phi target agent_blr target_blr).1.getD a default =
      train (agent_blr.getD a default) (blr_mask_phi act a phi) (blr_mask_y act a target) ∧
    (bdqn_init_ensembles n_actions agent0 target0).1.length = n_actions ∧
    (bdqn_init_ensembles n_actions agent0 target0).2.length = n_actions := by
  have hphi : (blr_mask_phi act a phi).getD b [] =
      (phi.getD b []).map (fun x => x * (if act.getD b 0 = a then 1 else 0)) := by
    unfold blr_mask_phi
    rw [getD_zipWith _ act phi b 0 [] [] hb1 hb2]
  have hy : (blr_mask_y act a target).getD b 0 =
      (target.getD b 0) * (if act.getD b 0 = a then 1 else 0) := by
    unfold blr_mask_y
    rw [getD_zipWith _ act target b 0 0 0 hb1 hb3]
  refine ⟨?_, ?_, ?_, by simp [bdqn_init_ensembles], by simp [bdqn_init_ensembles]⟩
  · intro hne
    rw [hphi, hy, if_neg hne]
    exact ⟨map_mul_zero _, mul_zero _⟩
  · intro heq
    rw [hphi, hy, if_pos heq]
    constructor
    · simp
    · rw [mul_one]
  · unfold build_train_blr_op
    exact getD_mapIdx agent_blr _ a default default ha

theorem c6_blr_masking_per_action_witness :
    ((0 : ℕ) < 1 ∧ (0 : ℕ) < 1 ∧ (0 : ℕ) < 1 ∧ (0 : ℕ) < 1) ∧
    ((([1].getD 0 0 : ℕ) ≠ 0 →
        (blr_mask_phi [1] 0 [[(2 : ℚ)]]).getD 0 [] =
          List.replicate (([[(2 : ℚ)]].getD 0 []).length) 0 ∧
        (blr_mask_y [1] 0 [(3 : ℚ)]).getD 0 0 = 0) ∧
      (([1].getD 0 0 : ℕ) = 0 →
        (blr_mask_phi [1] 0 [[(2 : ℚ)]]).getD 0 [] = [[(2 : ℚ)]].getD 0 [] ∧
        (blr_mask_y [1] 0 [(3 : ℚ)]).getD 0 0 = [(3 : ℚ)].getD 0 0) ∧
      (build_train_blr_op (fun _ X y => ⟨y, X⟩) [1] [[(2 : ℚ)]] [(3 : ℚ)]
          [(default : BLRPost)] []).1.getD 0 default =
        (fun (_ : BLRPost) (X : List (List ℚ)) (y : List ℚ) => (⟨y, X⟩ : BLRPost))
          (([(default : BLRPost)]).getD 0 default)
          (blr_mask_phi [1] 0 [[(2 : ℚ)]]) (blr_mask_y [1] 0 [(3 : ℚ)]) ∧
      (bdqn_init_ensembles 3 default default).1.length = 3 ∧
      (bdqn_init_ensembles 3 default default).2.length = 3) :=
  ⟨⟨by decide, by decide, by decide, by decide⟩,
   c6_blr_masking_per_action (fun _ X y => ⟨y, X⟩) [1] [[(2 : ℚ)]] [(3 : ℚ)]
     [(default : BLRPost)] [] 3 default default 0 0
     (by decide) (by decide) (by decide) (by decide)⟩

theorem exists_min_mem : ∀ (xs : List ℚ), xs ≠ [] → ∃ x ∈ xs, ∀ y ∈ xs, x ≤ y := by
  intro xs
  induction xs with
  | nil => intro h; exact absurd rfl h
  | cons a as ih =>
    intro _
    cases as with
    | nil => exact ⟨a, by simp⟩
    | cons b bs =>
      obtain ⟨m, hm, hmin⟩ := ih (by simp)
      by_cases hc : m ≤ a
      · exact ⟨m, List.mem_cons_of_mem a hm, by
          intro y hy
          rcases List.mem_cons.mp hy with h | h
          · exact h ▸ hc
          · exact hmin y h⟩
      · exact ⟨a, List.mem_cons_self a _, by
          intro y hy
          rcases List.mem_cons.mp hy with h | h
          · exact h ▸ le_refl a
          · exact le_trans (le_of_not_le hc) (hmin y h)⟩

theorem argminIdx_lt_length (xs : List ℚ) (h : xs ≠ []) : argminIdx xs < xs.length := by
  obtain ⟨m, hm, hmin⟩ := exists_min_mem xs h
  apply List.findIdx_lt_length_of_exists
  exact ⟨m, hm, by simpa using hmin⟩

theorem argminIdx_spec (xs : List ℚ) (h : xs ≠ []) :
    ∀ y ∈ xs, xs.getD (argminIdx xs) 0 ≤ y := by
  have hlt := argminIdx_lt_length xs h
  have := List.findIdx_getElem (w := hlt)
  simp only [List.all_eq_true, decide_eq_true_eq] at this
  intro y hy
  have hg : xs.getD (argminIdx xs) 0 = xs[argminIdx xs] := List.getD_eq_getElem xs 0 hlt
  rw [hg]
  exact this y hy

/- ### BDQN_IDS (bdqn.py lines 157-200)

BDQN_IDS.__init__ stores n_stds and hard-codes self.rho = 1.0; QRDQN.__init__ stores N
and k.  Neither performs any validation.  tf.sqrt and tf.log are abstracted as function
parameters.  tf.check_numerics(ids_score, ...) fails the op when an entry of ids_score is
NaN or Inf; with finite inputs, exact arithmetic and tf.div, this happens exactly when a
denominator info_gain entry is 0 (0/0 gives NaN, x/0 gives Inf), which the embedding
makes explicit: Except.error is the fatal InvalidArgument error of check_numerics. -/

structure QRDQNConf where
  N : ℤ
  k : ℤ
deriving DecidableEq

/-- QRDQN.__init__ (qr_dqn.py lines 10-21): stores N and k unchecked. -/
def qrdqn_init (N k : ℤ) : QRDQNConf := ⟨N, k⟩

structure IDSConf where
  n_stds : ℚ
  rho    : ℚ
deriving DecidableEq

/-- BDQN_IDS.__init__ (bdqn.py lines 160-164): stores n_stds unchecked and sets
rho = 1.0 unconditionally; rho is not a constructor parameter. -/
def bdqn_ids_init (n_stds : ℚ) : IDSConf := ⟨n_stds, 1⟩

/-- The ids_score tensor of BDQN_IDS._act_train (bdqn.py lines 167-175), node by node:
std = sqrt(var); regret = reduce_max(mean + n_stds * std, keepdims) - (mean - n_stds * std);
regret_sq = square(regret); info_gain = log(1 + var / rho^2) + 1e-5;
ids_score = div(regret_sq, info_gain). -/
def ids_scores (cfg : IDSConf) (sqrt log : ℚ → ℚ) (mean var : List ℚ) : List ℚ :=
  let std := var.map sqrt
  let ub := List.zipWith (fun m s => m + cfg.n_stds * s) mean std
  let regret := List.zipWith (fun m s => rmax ub - (m - cfg.n_stds * s)) mean std
  let regret_sq := regret.map (fun r => r ^ 2)
  let info_gain := var.map (fun v => log (1 + v / cfg.rho ^ 2) + 1/100000)
  List.zipWith (fun r g => r / g) regret_sq info_gain

/-- BDQN_IDS._act_train (bdqn.py lines 167-178): check_numerics on ids_score, then
action = argmin(ids_score). -/
def act_train_ids (cfg : IDSConf) (sqrt log : ℚ → ℚ) (mean var : List ℚ) :
    Except String (List ℚ × ℕ) :=
  let info_gain := var.map (fun v => log (1 + v / cfg.rho ^ 2) + 1/100000)
  if info_gain.all (fun g => decide (g ≠ 0))
  then Except.ok (ids_scores cfg sqrt log mean var, argminIdx (ids_scores cfg sqrt log mean var))
  else Except.error "IDS score is NaN or Inf"

/-- The IDS score of action a exactly as claim C7 states it:
regret = max over actions of (mean + n_stds * std) minus (mean_a - n_stds * std_a),
info_gain = ln(1 + var_a / rho^2) + epsilon, score = regret^2 / info_gain. -/
def ids_claim_score (n_stds rho eps : ℚ) (sqrt log : ℚ → ℚ) (mean var : List ℚ) (a : ℕ) : ℚ :=
  let regret := rmax (List.zipWith (fun m v => m + n_stds * sqrt v) mean var) -
    (mean.getD a 0 - n_stds * sqrt (var.getD a 0))
  regret ^ 2 / (log (1 + var.getD a 0 / rho ^ 2) + eps)

theorem ids_scores_length (cfg : IDSConf) (sqrt log : ℚ → ℚ) (mean var : List ℚ)
    (hlen : mean.length = var.length) :
    (ids_scores cfg sqrt log mean var).length = mean.length := by
  simp [ids_scores, List.length_zipWith, hlen]

theorem ids_scores_entry (cfg : IDSConf) (sqrt log : ℚ → ℚ) (mean var : List ℚ)
    (hlen : mean.length = var.length) (a : ℕ) (ha : a < mean.length) :
    (ids_scores cfg sqrt log mean var).getD a 0 =
      ids_claim_score cfg.n_stds cfg.rho (1/100000) sqrt log mean var a := by
  have hstd : (var.map sqrt).length = var.length := List.length_map _ _
  have hreglen : (List.zipWith
      (fun m s => rmax (List.zipWith (fun m s => m + cfg.n_stds * s) mean (var.map sqrt)) -
        (m - cfg.n_stds * s)) mean (var.map sqrt)).length = mean.length := by
    simp [List.length_zipWith, hlen]
  simp only [ids_scores]
  rw [getD_zipWith _ _ _ a 0 0 0 (by simp [List.length_zipWith, hlen]; omega)
        (by simp [hlen]; omega),
      getD_map _ _ a 0 0 (by rw [hreglen]; omega),
      getD_map _ _ a 0 0 (by rw [← hlen]; omega),
      getD_zipWith _ _ _ a 0 0 0 ha (by rw [hstd, ← hlen]; omega),
      getD_map _ _ a 0 0 (by rw [← hlen]; omega)]
  simp only [ids_claim_score, List.zipWith_map_right]

/-- C7: under IDS exploration, for every batch the returned score vector assigns each
action a the value regret_a^2 / info_gain_a with
regret_a = max over actions of (mean + n_stds * sqrt var) - (mean_a - n_stds * sqrt var_a)
and info_gain_a = log(1 + var_a / rho^2) + 1e-5, and the selected action is the argmin of
the scores (first index attaining the minimum): it is in range and its score is less than
or equal to every action's score.  Holds whenever all info_gain denominators are nonzero
(otherwise check_numerics fires; see the error-handling claim). -/
theorem c7_ids_score_and_argmin (cfg : IDSConf) (sqrt log : ℚ → ℚ) (mean var : List ℚ)
    (hlen : mean.length = var.length) (hne : mean ≠ [])
    (hfin : ∀ v ∈ var, log (1 + v / cfg.rho ^ 2) + 1/100000 ≠ 0) :
    act_train_ids cfg sqrt log mean var =
      Except.ok (ids_scores cfg sqrt log mean var, argminIdx (ids_scores cfg sqrt log mean var)) ∧
    (∀ a, a < mean.length →
      (ids_scores cfg sqrt log mean var).getD a 0 =
        ids_claim_score cfg.n_stds cfg.rho (1/100000) sqrt log mean var a) ∧
    argminIdx (ids_scores cfg sqrt log mean var) < mean.length ∧
    (∀ a, a < mean.length →
      (ids_scores cfg sqrt log mean var).getD
          (argminIdx (ids_scores cfg sqrt log mean var)) 0 ≤
        (ids_scores cfg sqrt log mean var).getD a 0) := by
  have hcond : (var.map (fun v => log (1 + v / cfg.rho ^ 2) + 1/100000)).all
      (fun g => decide (g ≠ 0)) = true := by
    rw [List.all_eq_true]
    intro g hg
    rw [List.mem_map] at hg
    obtain ⟨v, hv, hgv⟩ := hg
    simpa [← hgv] using hfin v hv
  have hslen : (ids_scores cfg sqrt log mean var).length = mean.length :=
    ids_scores_length cfg sqrt log mean var hlen
  have hsne : ids_scores cfg sqrt log mean var ≠ [] := by
    intro hc
    rw [hc] at hslen
    exact hne (List.length_eq_zero.mp hslen.symm)
  refine ⟨?_, fun a ha => ids_scores_entry cfg sqrt log mean var hlen a ha, ?_, ?_⟩
  · simp only [act_train_ids]
    rw [hcond]
    simp
  · have := argminIdx_lt_length _ hsne
    omega
  · intro a ha
    exact argminIdx_spec _ hsne _ (getD_mem _ a 0 (by omega))

theorem c7_ids_score_and_argmin_witness :
    (([(1 : ℚ), 2] : List ℚ).length = ([(1 : ℚ), 4] : List ℚ).length ∧
      ([(1 : ℚ), 2] : List ℚ) ≠ [] ∧
      (∀ v ∈ ([(1 : ℚ), 4] : List ℚ),
        (fun x => x) (1 + v / (bdqn_ids_init 1).rho ^ 2) + 1/100000 ≠ 0)) ∧
    (act_train_ids (bdqn_ids_init 1) (fun x => x) (fun x => x) [1, 2] [1, 4] =
        Except.ok (ids_scores (bdqn_ids_init 1) (fun x => x) (fun x => x) [1, 2] [1, 4],
          argminIdx (ids_scores (bdqn_ids_init 1) (fun x => x) (fun x => x) [1, 2] [1, 4])) ∧
      (∀ a, a < ([(1 : ℚ), 2] : List ℚ).length →
        (ids_scores (bdqn_ids_init 1) (fun x => x) (fun x => x) [1, 2] [1, 4]).getD a 0 =
          ids_claim_score (bdqn_ids_init 1).n_stds (bdqn_ids_init 1).rho (1/100000)
            (fun x => x) (fun x => x) [1, 2] [1, 4] a) ∧
      argminIdx (ids_scores (bdqn_ids_init 1) (fun x => x) (fun x => x) [1, 2] [1, 4]) <
        ([(1 : ℚ), 2] : List ℚ).length ∧
      (∀ a, a < ([(1 : ℚ), 2] : List ℚ).length →
        (ids_scores (bdqn_ids_init 1) (fun x => x) (fun x => x) [1, 2] [1, 4]).getD
            (argminIdx (ids_scores (bdqn_ids_init 1) (fun x => x) (fun x => x) [1, 2] [1, 4])) 0 ≤
          (ids_scores (bdqn_ids_init 1) (fun x => x) (fun x => x) [1, 2] [1, 4]).getD a 0)) :=
  ⟨⟨by decide, by decide, by intro v hv; fin_cases hv <;> norm_num [bdqn_ids_init]⟩,
   c7_ids_score_and_argmin (bdqn_ids_init 1) (fun x => x) (fun x => x) [1, 2] [1, 4]
     (by decide) (by decide)
     (by intro v hv; fin_cases hv <;> norm_num [bdqn_ids_init])⟩

/-- C8 counterexample to the claim as stated: a batch in which var = 0 for an action
(here every action) does NOT raise the fatal numerical error: info_gain =
log(1 + 0) + 1e-5 = 1e-5 is finite and nonzero, the score is finite, and the op returns
the action normally.  The sqrt and log stand-ins agree with the real functions at every
point actually evaluated on this input: sqrt is applied only to 0 (sqrt 0 = 0) and log
only to 1 (log 1 = 0). -/
theorem c8_zero_variance_no_error :
    act_train_ids (bdqn_ids_init 1) (fun _ => 0) (fun _ => 0) [0, 0] [0, 0] =
      Except.ok ([0, 0], 0) := by
  norm_num [act_train_ids, ids_scores, bdqn_ids_init, rmax, argminIdx, List.findIdx_cons]

/-- C8 amended: non-finite (NaN or Inf) IDS scores are always fatal -- whenever some
info_gain denominator is zero, check_numerics raises the error instead of returning; but
a variance of zero for an action is NOT such a case: for every batch of nonnegative
variances (zero included), provided log is nonnegative at arguments greater than or equal
to one (true of the real log), every info_gain is at least 1e-5, so the op returns
normally and no error is raised. -/
theorem c8_nonfinite_fatal_but_zero_var_finite (n_stds : ℚ) (sqrt log : ℚ → ℚ)
    (mean var : List ℚ)
    (hlogpos : ∀ x, 1 ≤ x → 0 ≤ log x) (hvar : ∀ v ∈ var, 0 ≤ v) :
    (∃ out, act_train_ids (bdqn_ids_init n_stds) sqrt log mean var = Except.ok out) ∧
    (∀ mean' var' : List ℚ,
      (∃ v ∈ var', log (1 + v / (bdqn_ids_init n_stds).rho ^ 2) + 1/100000 = 0) →
      act_train_ids (bdqn_ids_init n_stds) sqrt log mean' var' =
        Except.error "IDS score is NaN or Inf") := by
  constructor
  · have hcond : (var.map (fun v =>
        log (1 + v / (bdqn_ids_init n_stds).rho ^ 2) + 1/100000)).all
        (fun g => decide (g ≠ 0)) = true := by
      rw [List.all_eq_true]
      intro g hg
      rw [List.mem_map] at hg
      obtain ⟨v, hv, hgv⟩ := hg
      have h1 : (1 : ℚ) ≤ 1 + v / (bdqn_ids_init n_stds).rho ^ 2 := by
        have := hvar v hv
        simp only [bdqn_ids_init]
        nlinarith
      have := hlogpos _ h1
      simp only [← hgv, ne_eq, decide_eq_true_eq]
      intro hc
      nlinarith
    refine ⟨(ids_scores (bdqn_ids_init n_stds) sqrt log mean var,
      argminIdx (ids_scores (bdqn_ids_init n_stds) sqrt log mean var)), ?_⟩
    simp only [act_train_ids]
    rw [hcond]
    simp
  · intro mean' var' ⟨v, hv, hzero⟩
    have hcond : (var'.map (fun v =>
        log (1 + v / (bdqn_ids_init n_stds).rho ^ 2) + 1/100000)).all
        (fun g => decide (g ≠ 0)) = false := by
      rw [List.all_eq_false]
      refine ⟨_, List.mem_map_of_mem _ hv, ?_⟩
      simp only [ne_eq, decide_eq_true_eq, not_not]
      simpa using hzero
    simp only [act_train_ids]
    rw [hcond]
    simp

theorem c8_nonfinite_fatal_but_zero_var_finite_witness :
    ((∀ x : ℚ, 1 ≤ x → 0 ≤ x - 1) ∧ (∀ v ∈ ([(0 : ℚ), 3] : List ℚ), 0 ≤ v)) ∧
    ((∃ out, act_train_ids (bdqn_ids_init 1) (fun x => x) (fun x => x - 1) [1, 2] [0, 3] =
        Except.ok out) ∧
      (∀ mean' var' : List ℚ,
        (∃ v ∈ var', (fun x => x - 1) (1 + v / (bdqn_ids_init 1).rho ^ 2) + 1/100000 = 0) →
        act_train_ids (bdqn_ids_init 1) (fun x => x) (fun x => x - 1) mean' var' =
          Except.error "IDS score is NaN or Inf")) :=
  ⟨⟨fun x hx => by linarith, by decide⟩,
   c8_nonfinite_fatal_but_zero_var_finite 1 (fun x => x) (fun x => x - 1) [1, 2] [0, 3]
     (fun x hx => by show (0 : ℚ) ≤ x - 1; linarith) (by decide)⟩

/- ### Construction (claim C9) -/

/-- C9 counterexample to the claim as stated: construction does not fail fast on invalid
configuration and rho is not supplied as configuration.  QRDQN.__init__ called with the
invalid quantile count N = 0 succeeds and stores N = 0 (its return type has no failure
path: the body is two attribute assignments); BDQN_IDS.__init__ takes no rho parameter
and hard-codes rho = 1.0 whatever n_stds is supplied. -/
theorem c9_no_construction_validation :
    qrdqn_init 0 5 = ⟨0, 5⟩ ∧
    (bdqn_ids_init 2).rho = 1 ∧ (bdqn_ids_init (-7)).rho = 1 :=
  ⟨rfl, rfl, rfl⟩

/-- C9 amended: the constructors store their parameters unchanged and unvalidated:
qrdqn_init stores exactly the supplied N and k (even N less than or equal to 0),
bdqn_ids_init stores exactly the supplied n_stds, and rho is always the hard-coded 1.0
rather than a supplied parameter; no invalid value causes a failure at construction. -/
theorem c9_constructors_store_unvalidated (N k : ℤ) (n_stds : ℚ) :
    (qrdqn_init N k).N = N ∧ (qrdqn_init N k).k = k ∧
    (bdqn_ids_init n_stds).n_stds = n_stds ∧ (bdqn_ids_init n_stds).rho = 1 :=
  ⟨rfl, rfl, rfl, rfl⟩

/- ### QRDQN._compute_z_variance (qr_dqn.py lines 193-212)

center = z - reduce_mean(z, axis=-1, keepdims); z_var = reduce_mean(square(center));
if normalize: z_var = z_var / reduce_mean(z_var, axis=-1, keepdims).  The division has no
zero guard.  Over floats, when the cross-action mean of the (nonnegative) variances is 0
every variance is 0 and every normalized entry is the NaN 0/0; the embedding returns
none for this non-finite outcome (a silently propagated value, not a raised error) and
some values otherwise. -/

def compute_z_variance (z : List (List ℚ)) : List ℚ :=
  z.map (fun row => rmean (row.map (fun x => (x - rmean row) ^ 2)))

def compute_z_variance_norm (z : List (List ℚ)) : Option (List ℚ) :=
  let z_var := compute_z_variance z
  let m := rmean z_var
  if m = 0 then none else some (z_var.map (fun v => v / m))

theorem sum_map_div (v : List ℚ) (m : ℚ) : (v.map (fun x => x / m)).sum = v.sum / m := by
  induction v with
  | nil => simp
  | cons a as ih => simp [ih, add_div]

theorem rmean_map_div (v : List ℚ) (m : ℚ) :
    rmean (v.map (fun x => x / m)) = rmean v / m := by
  simp only [rmean, sum_map_div, List.length_map]
  rw [div_right_comm]

theorem sum_pos_of_mem (xs : List ℚ) (hnn : ∀ x ∈ xs, 0 ≤ x) (y : ℚ) (hy : y ∈ xs)
    (hpos : 0 < y) : 0 < xs.sum := by
  induction xs with
  | nil => simp at hy
  | cons a as ih =>
    rw [List.sum_cons]
    rcases List.mem_cons.mp hy with h | h
    · have has : 0 ≤ as.sum := List.sum_nonneg (fun x hx => hnn x (List.mem_cons_of_mem a hx))
      rw [← h]
      linarith
    · have ha : 0 ≤ a := hnn a (List.mem_cons_self a as)
      have := ih (fun x hx => hnn x (List.mem_cons_of_mem a hx)) h
      linarith

theorem z_variance_nonneg (z : List (List ℚ)) : ∀ v ∈ compute_z_variance z, 0 ≤ v := by
  intro v hv
  rw [compute_z_variance, List.mem_map] at hv
  obtain ⟨row, _, hrv⟩ := hv
  rw [← hrv, rmean]
  apply div_nonneg
  · apply List.sum_nonneg
    intro x hx
    rw [List.mem_map] at hx
    obtain ⟨y, _, hyx⟩ := hx
    rw [← hyx]
    positivity
  · positivity

/-- C10: the normalized return-distribution variance diagnostic divides each action's
variance by the cross-action mean variance with no zero guard.  For every state whose
action rows are nonempty: if at least one action's variance is positive, the normalized
output exists (all entries finite), has one entry per action, and its mean over actions
is exactly 1; if every action's quantile values are constant (all variances zero), the
division is 0/0 and the result is the non-finite NaN outcome (none), silently returned
rather than raised as an error. -/
theorem c10_z_variance_normalization (z : List (List ℚ))
    (hz : z ≠ []) (hrows : ∀ r ∈ z, r ≠ []) :
    ((∃ v ∈ compute_z_variance z, 0 < v) →
      ∃ l, compute_z_variance_norm z = some l ∧ rmean l = 1 ∧ l.length = z.length) ∧
    ((∀ r ∈ z, ∀ x ∈ r, ∀ y ∈ r, x = y) → compute_z_variance_norm z = none) := by
  constructor
  · intro ⟨v, hv, hvpos⟩
    have hnn := z_variance_nonneg z
    have hsum : 0 < (compute_z_variance z).sum := sum_pos_of_mem _ hnn v hv hvpos
    have hlen : (compute_z_variance z).length = z.length := List.length_map _ _
    have hlpos : 0 < ((compute_z_variance z).length : ℚ) := by
      rw [hlen]
      exact_mod_cast List.length_pos.mpr hz
    have hm : 0 < rmean (compute_z_variance z) := div_pos hsum hlpos
    have hmne : rmean (compute_z_variance z) ≠ 0 := ne_of_gt hm
    refine ⟨(compute_z_variance z).map (fun x => x / rmean (compute_z_variance z)), ?_, ?_, ?_⟩
    · simp only [compute_z_variance_norm]
      rw [if_neg hmne]
    · rw [rmean_map_div]
      exact div_self hmne
    · rw [List.length_map, hlen]
  · intro hconst
    have hall0 : ∀ v ∈ compute_z_variance z, v = 0 := by
      intro v hv
      rw [compute_z_variance, List.mem_map] at hv
      obtain ⟨row, hrow, hrv⟩ := hv
      have hrne : row ≠ [] := hrows row hrow
      have hlne : ((row.length : ℚ)) ≠ 0 := by
        exact_mod_cast Nat.pos_iff_ne_zero.mp (List.length_pos.mpr hrne)
      have hzero : ∀ x ∈ row, x - rmean row = 0 := by
        intro x hx
        have hxall : ∀ y ∈ row, y = x := fun y hy => hconst row hrow y hy x hx
        have hsum : row.sum = row.length • x := List.sum_eq_card_nsmul row x hxall
        rw [rmean, hsum, nsmul_eq_mul, mul_comm, mul_div_assoc, div_self hlne, mul_one]
        ring
      rw [← hrv, rmean]
      have : ∀ y ∈ row.map (fun x => (x - rmean row) ^ 2), y = 0 := by
        intro y hy
        rw [List.mem_map] at hy
        obtain ⟨x, hx, hxy⟩ := hy
        rw [← hxy, hzero x hx]
        ring
      rw [List.sum_eq_zero this, zero_div]
    have hm0 : rmean (compute_z_variance z) = 0 := by
      rw [rmean, List.sum_eq_zero hall0, zero_div]
    simp only [compute_z_variance_norm]
    rw [if_pos hm0]

theorem c10_z_variance_normalization_witness :
    (([[ (0:ℚ), 2], [1, 1]] : List (List ℚ)) ≠ [] ∧
      (∀ r ∈ ([[ (0:ℚ), 2], [1, 1]] : List (List ℚ)), r ≠ [])) ∧
    (((∃ v ∈ compute_z_variance [[ (0:ℚ), 2], [1, 1]], 0 < v) →
        ∃ l, compute_z_variance_norm [[ (0:ℚ), 2], [1, 1]] = some l ∧ rmean l = 1 ∧
          l.length = ([[ (0:ℚ), 2], [1, 1]] : List (List ℚ)).length) ∧
      ((∀ r ∈ ([[ (0:ℚ), 2], [1, 1]] : List (List ℚ)), ∀ x ∈ r, ∀ y ∈ r, x = y) →
        compute_z_variance_norm [[ (0:ℚ), 2], [1, 1]] = none)) :=
  ⟨⟨by decide, by decide⟩,
   c10_z_variance_normalization [[ (0:ℚ), 2], [1, 1]] (by decide) (by decide)⟩

end Rltf
